import Mathlib

/-
Verification of the RouletteWheel weighted-random-selection container
(src/RouletteWheel.hpp, src/classes/WheelRegion.hpp).

The C++ template is embedded shallowly:
  * the element type `E` stays generic (equality-comparable);
  * the weight type `W` is instantiated at `Int`, the integral case of the
    template (`std::is_integral_v<W>`);
  * the mutable `std::vector<WheelRegion>` member becomes a `List` carried
    in a `RouletteWheel` structure, and every mutating member function
    returns the updated structure alongside its C++ return value
    (a thrown exception becomes an `Except`/`Option` error value paired
    with the unchanged structure);
  * the random machinery (`std::mt19937` together with
    `std::uniform_int_distribution`, both from the C++ standard library,
    not from this repository) is abstracted as a deterministic state
    machine `RandomSource`: `generate` models `generateRandomWeight`'s
    call `distribution(m_randomEngine)` — it consumes the engine state and
    the upper weight bound and yields the drawn value plus the successor
    state — and `seed` models `std::mt19937::seed`.
-/

set_option autoImplicit false
set_option linter.unusedSectionVars false
set_option linter.unusedVariables false

namespace Roulette

/-- WheelRegion (src/classes/WheelRegion.hpp): an element together with its
selection weight.  `getElement`/`getWeight` are the field projections and
`setWeight` is a functional record update at the use sites. -/
structure WheelRegion (E : Type) where
  element : E
  weight : Int
  deriving DecidableEq, Repr

/-- The two error conditions the wheel can raise (§7 of the design:
`InvalidWeight` from addRegion, `EmptyWheel` from the selection family).
In C++ they are `std::invalid_argument` and `std::runtime_error`. -/
inductive WheelError where
  | invalidWeight
  | emptyWheel
  deriving DecidableEq, Repr

/-- Abstraction of the C++ standard library random machinery used by the
wheel: `generate s bound` models `generateRandomWeight` drawing from
`uniform_int_distribution(0, bound - 1)` on an `std::mt19937` in state `s`,
returning the drawn value and the advanced engine state; `seed` models
`std::mt19937::seed`.  Both engine and distribution are deterministic
functions of the engine state, which is all the embedding relies on. -/
structure RandomSource (σ : Type) where
  generate : σ → Int → Int × σ
  seed : Nat → σ

/-- RouletteWheel (src/RouletteWheel.hpp): the ordered region sequence
`m_regions` plus the random engine state `m_randomEngine`. -/
structure RouletteWheel (E : Type) (σ : Type) where
  m_regions : List (WheelRegion E)
  m_randomEngine : σ
  deriving DecidableEq, Repr

variable {E σ : Type} [DecidableEq E]

/-- calculateTotalWeight: sum of all region weights, accumulated left to
right starting from 0. -/
def calculateTotalWeight (regions : List (WheelRegion E)) : Int :=
  regions.foldl (fun totalWeight region => totalWeight + region.weight) 0

/-- generateRandomWeight: draws a value in `[0, maxWeight)` from the random
source, advancing the engine state. -/
def generateRandomWeight (rs : RandomSource σ) (state : σ) (maxWeight : Int) :
    Int × σ :=
  rs.generate state maxWeight

/-- The accumulation loop of selectElementByWeight: walk the regions,
adding each weight to `accumulatedWeight`; stop at the first region where
the updated `accumulatedWeight` strictly exceeds `randomValue`.  `none`
means the loop fell through. -/
def selectElementLoop : List (WheelRegion E) → Int → Int → Option E
  | [], _, _ => none
  | region :: rest, accumulatedWeight, randomValue =>
      if accumulatedWeight + region.weight > randomValue then
        some region.element
      else selectElementLoop rest (accumulatedWeight + region.weight) randomValue

/-- selectElementByWeight: the walk above, followed by the defensive
fallback `return m_regions.back().getElement()` when the loop falls
through.  The result is `none` only on an empty region list (where the C++
fallback would be undefined behavior; the function is only invoked on
wheels with at least two regions). -/
def selectElementByWeight (regions : List (WheelRegion E))
    (randomValue : Int) : Option E :=
  match selectElementLoop regions 0 randomValue with
  | some e => some e
  | none => regions.getLast?.map (fun region => region.element)

/-- findElementIndex: index of the first region whose element equals
`element`, scanning from the front; `none` if absent. -/
def findElementIndex (regions : List (WheelRegion E)) (element : E) :
    Option Nat :=
  match regions with
  | [] => none
  | region :: rest =>
      if region.element = element then some 0
      else (findElementIndex rest element).map (fun i => i + 1)

/-- findElementWeight: the weight stored at `findElementIndex`. -/
def findElementWeight (regions : List (WheelRegion E)) (element : E) :
    Option Int :=
  match findElementIndex regions element with
  | none => none
  | some index => (regions[index]?).map (fun region => region.weight)

/-- Functional rendering of `m_regions[index].setWeight(weight)`. -/
def setWeightAtIndex (regions : List (WheelRegion E)) (index : Nat)
    (weight : Int) : List (WheelRegion E) :=
  match regions, index with
  | [], _ => []
  | region :: rest, 0 => { region with weight := weight } :: rest
  | region :: rest, index + 1 => region :: setWeightAtIndex rest index weight

/-- combineWeightAtIndex: add `additionalWeight` to the weight stored at
`index` (the index is always in range at the call sites). -/
def combineWeightAtIndex (regions : List (WheelRegion E)) (index : Nat)
    (additionalWeight : Int) : List (WheelRegion E) :=
  match regions[index]? with
  | none => regions
  | some region =>
      setWeightAtIndex regions index (region.weight + additionalWeight)

/-- modifyElementWeight: add `weightDelta` to the weight of `element`'s
region; erase the region instead when the new weight is `≤ 0`; do nothing
when the element is absent. -/
def modifyElementWeight (regions : List (WheelRegion E)) (element : E)
    (weightDelta : Int) : List (WheelRegion E) :=
  match findElementIndex regions element with
  | none => regions
  | some index =>
      match regions[index]? with
      | none => regions
      | some region =>
          let newWeight := region.weight + weightDelta
          if newWeight ≤ 0 then regions.eraseIdx index
          else setWeightAtIndex regions index newWeight

/-- select: empty wheel raises `EmptyWheel`; a single region is returned
directly without touching the random engine; otherwise draw
`randomValue ∈ [0, totalWeight)` and run the selection walk.  The pair
carries the C++ return value (or thrown error) together with the wheel,
whose `m_randomEngine` member the draw advanced. -/
def select (rs : RandomSource σ) (w : RouletteWheel E σ) :
    Except WheelError E × RouletteWheel E σ :=
  match w.m_regions with
  | [] => (Except.error WheelError.emptyWheel, w)
  | [region] => (Except.ok region.element, w)
  | _ :: _ :: _ =>
      let totalWeight := calculateTotalWeight w.m_regions
      let drawn := generateRandomWeight rs w.m_randomEngine totalWeight
      ((match selectElementByWeight w.m_regions drawn.1 with
        | some e => Except.ok e
        | none => Except.error WheelError.emptyWheel),
       { w with m_randomEngine := drawn.2 })

/-- selectSafe: `nullopt` on an empty wheel, otherwise the result of
`select` wrapped in `some`. -/
def selectSafe (rs : RandomSource σ) (w : RouletteWheel E σ) :
    Option E × RouletteWheel E σ :=
  if w.m_regions.isEmpty then (none, w)
  else
    let selected := select rs w
    (selected.1.toOption, selected.2)

/-- addRegion: weight must be strictly positive, else `InvalidWeight` with
no mutation; an existing element accumulates the weight in place; a new
element is appended at the back. -/
def addRegion (w : RouletteWheel E σ) (element : E) (weight : Int) :
    Option WheelError × RouletteWheel E σ :=
  if weight ≤ 0 then (some WheelError.invalidWeight, w)
  else
    match findElementIndex w.m_regions element with
    | some index =>
        (none, { w with
                   m_regions := combineWeightAtIndex w.m_regions index weight })
    | none =>
        (none, { w with m_regions := w.m_regions ++ [⟨element, weight⟩] })

/-- removeElement: erase the region of `element` if present; the Bool
reports whether a removal happened. -/
def removeElement (w : RouletteWheel E σ) (element : E) :
    Bool × RouletteWheel E σ :=
  match findElementIndex w.m_regions element with
  | none => (false, w)
  | some index => (true, { w with m_regions := w.m_regions.eraseIdx index })

/-- removeInvalidRegions: drop every region with weight `≤ 0`; return how
many were dropped. -/
def removeInvalidRegions (w : RouletteWheel E σ) :
    Nat × RouletteWheel E σ :=
  let remaining :=
    w.m_regions.filter (fun region => ! decide (region.weight ≤ 0))
  (w.m_regions.length - remaining.length, { w with m_regions := remaining })

/-- selectAndModifyWeight: select, then add `weightDelta` to the selected
element's weight (pruning the region when the result is `≤ 0`); the
selected element is returned. -/
def selectAndModifyWeight (rs : RandomSource σ) (w : RouletteWheel E σ)
    (weightDelta : Int) : Except WheelError E × RouletteWheel E σ :=
  match select rs w with
  | (Except.error err, w') => (Except.error err, w')
  | (Except.ok selectedElement, w') =>
      (Except.ok selectedElement,
       { w' with
           m_regions :=
             modifyElementWeight w'.m_regions selectedElement weightDelta })

/-- selectAndRemove: select, then unconditionally remove the selected
element's region. -/
def selectAndRemove (rs : RandomSource σ) (w : RouletteWheel E σ) :
    Except WheelError E × RouletteWheel E σ :=
  match select rs w with
  | (Except.error err, w') => (Except.error err, w')
  | (Except.ok selectedElement, w') =>
      (Except.ok selectedElement, (removeElement w' selectedElement).2)

/-- empty query. -/
def emptyWheel (w : RouletteWheel E σ) : Bool :=
  w.m_regions.isEmpty

/-- size query. -/
def size (w : RouletteWheel E σ) : Nat :=
  w.m_regions.length

/-- seedRandom: reseed the engine deterministically. -/
def seedRandom (rs : RandomSource σ) (w : RouletteWheel E σ)
    (seedValue : Nat) : RouletteWheel E σ :=
  { w with m_randomEngine := rs.seed seedValue }

/-- The sequence of results of `n` successive `select()` calls, each call
continuing from the wheel state the previous one returned. -/
def selectSeq (rs : RandomSource σ) :
    RouletteWheel E σ → Nat → List (Except WheelError E)
  | _, 0 => []
  | w, n + 1 =>
      let selected := select rs w
      selected.1 :: selectSeq rs selected.2 n

/-- Spec-side notion (§4.2 step 3): the running partial sum before region
`k`, that is, the sum of the weights of the first `k` regions.
`partialSum regions k` is the "partialSum_before" of region `k` and
`partialSum regions (k+1)` its inclusive sum "partialSum_after". -/
def partialSum : List (WheelRegion E) → Nat → Int
  | _, 0 => 0
  | [], _ + 1 => 0
  | region :: rest, k + 1 => region.weight + partialSum rest k

/-- The documented wheel invariant (§3): at most one region per distinct
element value, and every stored weight strictly positive. -/
def WheelInv (regions : List (WheelRegion E)) : Prop :=
  regions.Pairwise (fun a b => a.element ≠ b.element) ∧
    ∀ region ∈ regions, 0 < region.weight

instance (regions : List (WheelRegion E)) : Decidable (WheelInv regions) := by
  unfold WheelInv
  exact instDecidableAnd

/-- A concrete deterministic random source used to instantiate the theorems
on concrete wheels: a linear-congruential engine over `Int` whose draw is
the state reduced modulo the bound. -/
def lcgSource : RandomSource Int where
  generate := fun state maxWeight => (state % maxWeight, 2 * state + 5)
  seed := fun seedValue => (seedValue : Int)

/-- A concrete empty wheel. -/
def emptySample : RouletteWheel Nat Int := ⟨[], 3⟩

/-- A concrete wheel with one region: element 0, weight 5. -/
def singleSample : RouletteWheel Nat Int := ⟨[⟨0, 5⟩], 6⟩

/-- A concrete wheel with two regions: (0, 5) and (1, 10). -/
def doubleSample : RouletteWheel Nat Int := ⟨[⟨0, 5⟩, ⟨1, 10⟩], 6⟩

/-! Basic facts about the index and weight lookup helpers. -/

theorem findElementIndex_lt_length {regions : List (WheelRegion E)}
    {element : E} {index : Nat}
    (h : findElementIndex regions element = some index) :
    index < regions.length := by
  induction regions generalizing index with
  | nil => simp [findElementIndex] at h
  | cons r rest ih =>
      by_cases he : r.element = element
      · simp [findElementIndex, he] at h
        simp only [List.length_cons]
        omega
      · simp only [findElementIndex, if_neg he, Option.map_eq_some'] at h
        obtain ⟨j, hj, rfl⟩ := h
        have := ih hj
        simp only [List.length_cons]
        omega

theorem findElementIndex_getElem? {regions : List (WheelRegion E)}
    {element : E} {index : Nat}
    (h : findElementIndex regions element = some index) :
    ∃ region, regions[index]? = some region ∧ region.element = element := by
  induction regions generalizing index with
  | nil => simp [findElementIndex] at h
  | cons r rest ih =>
      by_cases he : r.element = element
      · simp [findElementIndex, he] at h
        subst h
        exact ⟨r, by simp, he⟩
      · simp only [findElementIndex, if_neg he, Option.map_eq_some'] at h
        obtain ⟨j, hj, rfl⟩ := h
        obtain ⟨region, hget, helem⟩ := ih hj
        exact ⟨region, by simpa using hget, helem⟩

theorem findElementIndex_eq_none {regions : List (WheelRegion E)} {element : E} :
    findElementIndex regions element = none ↔
      ∀ region ∈ regions, region.element ≠ element := by
  induction regions with
  | nil => simp [findElementIndex]
  | cons r rest ih =>
      by_cases he : r.element = element
      · simp [findElementIndex, he]
      · simp [findElementIndex, he, ih]

theorem findElementIndex_isSome_of_mem {regions : List (WheelRegion E)}
    {element : E} (h : element ∈ regions.map WheelRegion.element) :
    ∃ index, findElementIndex regions element = some index := by
  cases hfind : findElementIndex regions element with
  | some index => exact ⟨index, rfl⟩
  | none =>
      simp only [List.mem_map] at h
      obtain ⟨region, hmem, helem⟩ := h
      exact absurd helem (findElementIndex_eq_none.1 hfind region hmem)

theorem findElementIndex_congr {regions₁ regions₂ : List (WheelRegion E)}
    (element : E)
    (h : regions₁.map WheelRegion.element = regions₂.map WheelRegion.element) :
    findElementIndex regions₁ element = findElementIndex regions₂ element := by
  induction regions₁ generalizing regions₂ with
  | nil =>
      cases regions₂ with
      | nil => rfl
      | cons r rest => simp at h
  | cons r rest ih =>
      cases regions₂ with
      | nil => simp at h
      | cons r' rest' =>
          simp only [List.map_cons, List.cons.injEq] at h
          obtain ⟨h1, h2⟩ := h
          simp only [findElementIndex, h1, ih h2]

theorem findElementWeight_eq_some_find {regions : List (WheelRegion E)}
    {element : E} {index : Nat}
    (hfind : findElementIndex regions element = some index) :
    findElementWeight regions element =
      (regions[index]?).map (fun region => region.weight) := by
  unfold findElementWeight
  rw [hfind]

theorem findElementWeight_eq_none_find {regions : List (WheelRegion E)}
    {element : E} (hfind : findElementIndex regions element = none) :
    findElementWeight regions element = none := by
  unfold findElementWeight
  rw [hfind]

theorem findElementWeight_elim {regions : List (WheelRegion E)} {element : E}
    {weight : Int} (h : findElementWeight regions element = some weight) :
    ∃ index region, findElementIndex regions element = some index ∧
      regions[index]? = some region ∧ region.element = element ∧
      region.weight = weight := by
  cases hfind : findElementIndex regions element with
  | none => rw [findElementWeight_eq_none_find hfind] at h; exact absurd h (by simp)
  | some index =>
      obtain ⟨region, hget, helem⟩ := findElementIndex_getElem? hfind
      rw [findElementWeight_eq_some_find hfind, hget, Option.map_some'] at h
      exact ⟨index, region, rfl, hget, helem, Option.some.inj h⟩

/-! Facts about the in-place weight update helpers. -/

theorem length_setWeightAtIndex (regions : List (WheelRegion E))
    (index : Nat) (weight : Int) :
    (setWeightAtIndex regions index weight).length = regions.length := by
  induction regions generalizing index with
  | nil => simp [setWeightAtIndex]
  | cons r rest ih => cases index <;> simp [setWeightAtIndex, ih]

theorem map_element_setWeightAtIndex (regions : List (WheelRegion E))
    (index : Nat) (weight : Int) :
    (setWeightAtIndex regions index weight).map WheelRegion.element =
      regions.map WheelRegion.element := by
  induction regions generalizing index with
  | nil => simp [setWeightAtIndex]
  | cons r rest ih => cases index <;> simp [setWeightAtIndex, ih]

theorem getElem?_setWeightAtIndex_self (regions : List (WheelRegion E))
    (index : Nat) (weight : Int) :
    (setWeightAtIndex regions index weight)[index]? =
      (regions[index]?).map (fun region => { region with weight := weight }) := by
  induction regions generalizing index with
  | nil => simp [setWeightAtIndex]
  | cons r rest ih => cases index <;> simp [setWeightAtIndex, ih]

theorem mem_setWeightAtIndex {regions : List (WheelRegion E)} {index : Nat}
    {weight : Int} {region : WheelRegion E}
    (h : region ∈ setWeightAtIndex regions index weight) :
    region ∈ regions ∨ region.weight = weight := by
  induction regions generalizing index with
  | nil => simp [setWeightAtIndex] at h
  | cons r rest ih =>
      cases index with
      | zero =>
          simp only [setWeightAtIndex, List.mem_cons] at h
          rcases h with rfl | h
          · exact Or.inr rfl
          · exact Or.inl (List.mem_cons_of_mem _ h)
      | succ n =>
          simp only [setWeightAtIndex, List.mem_cons] at h
          rcases h with rfl | h
          · exact Or.inl (List.mem_cons_self _ _)
          · rcases ih h with h' | h'
            · exact Or.inl (List.mem_cons_of_mem _ h')
            · exact Or.inr h'

/-! Facts about partial sums of region weights. -/

theorem partialSum_nonneg {regions : List (WheelRegion E)}
    (h : ∀ region ∈ regions, 0 ≤ region.weight) :
    ∀ k, 0 ≤ partialSum regions k := by
  induction regions with
  | nil => intro k; cases k <;> simp [partialSum]
  | cons r rest ih =>
      intro k
      cases k with
      | zero => simp [partialSum]
      | succ n =>
          have h1 : (0 : Int) ≤ r.weight := h r (List.mem_cons_self _ _)
          have h2 := ih (fun x hx => h x (List.mem_cons_of_mem _ hx)) n
          simp only [partialSum]
          omega

theorem partialSum_mono {regions : List (WheelRegion E)}
    (h : ∀ region ∈ regions, 0 ≤ region.weight) :
    ∀ {j k : Nat}, j ≤ k → partialSum regions j ≤ partialSum regions k := by
  induction regions with
  | nil =>
      intro j k _
      cases j <;> cases k <;> simp [partialSum]
  | cons r rest ih =>
      intro j k hjk
      cases j with
      | zero =>
          cases k with
          | zero => exact le_refl _
          | succ n =>
              have h1 : (0 : Int) ≤ r.weight := h r (List.mem_cons_self _ _)
              have h2 := partialSum_nonneg
                (fun x hx => h x (List.mem_cons_of_mem _ hx)) n
              simp only [partialSum]
              omega
      | succ m =>
          cases k with
          | zero => omega
          | succ n =>
              have := ih (fun x hx => h x (List.mem_cons_of_mem _ hx))
                (by omega : m ≤ n)
              simp only [partialSum]
              omega

/-! Facts about the selection walk. -/

theorem mem_of_getLast?_eq {l : List (WheelRegion E)} {r : WheelRegion E}
    (h : l.getLast? = some r) : r ∈ l := by
  have hx : r ∈ l.getLast? := h
  obtain ⟨hne, rfl⟩ := List.mem_getLast?_eq_getLast hx
  exact List.getLast_mem hne

theorem selectElementLoop_some_mem {regions : List (WheelRegion E)}
    {accumulatedWeight randomValue : Int} {e : E}
    (h : selectElementLoop regions accumulatedWeight randomValue = some e) :
    e ∈ regions.map WheelRegion.element := by
  induction regions generalizing accumulatedWeight with
  | nil => simp [selectElementLoop] at h
  | cons r rest ih =>
      by_cases hc : accumulatedWeight + r.weight > randomValue
      · simp only [selectElementLoop, if_pos hc, Option.some.injEq] at h
        simp [← h]
      · simp only [selectElementLoop, if_neg hc] at h
        simpa using Or.inr (ih h)

theorem selectElementByWeight_some_mem {regions : List (WheelRegion E)}
    {randomValue : Int} {e : E}
    (h : selectElementByWeight regions randomValue = some e) :
    e ∈ regions.map WheelRegion.element := by
  unfold selectElementByWeight at h
  cases hloop : selectElementLoop regions 0 randomValue with
  | some e' =>
      rw [hloop] at h
      exact Option.some.inj h ▸ selectElementLoop_some_mem hloop
  | none =>
      rw [hloop] at h
      simp only [Option.map_eq_some'] at h
      obtain ⟨r, hlast, rfl⟩ := h
      exact List.mem_map_of_mem _ (mem_of_getLast?_eq hlast)

theorem selectElementByWeight_isSome {regions : List (WheelRegion E)}
    (hne : regions ≠ []) (randomValue : Int) :
    ∃ e, selectElementByWeight regions randomValue = some e := by
  unfold selectElementByWeight
  cases hloop : selectElementLoop regions 0 randomValue with
  | some e => exact ⟨e, rfl⟩
  | none =>
      obtain ⟨r, hr⟩ :=
        Option.isSome_iff_exists.mp (List.getLast?_isSome.mpr hne)
      exact ⟨r.element, by rw [hr, Option.map_some']⟩

theorem selectElementLoop_bracket {regions : List (WheelRegion E)} :
    ∀ {accumulatedWeight randomValue : Int} {index : Nat}
      {region : WheelRegion E},
      regions[index]? = some region →
      (∀ r ∈ regions, 0 < r.weight) →
      accumulatedWeight + partialSum regions index ≤ randomValue →
      randomValue < accumulatedWeight + partialSum regions (index + 1) →
      selectElementLoop regions accumulatedWeight randomValue =
        some region.element := by
  induction regions with
  | nil => intro acc rv index region hget; simp at hget
  | cons r rest ih =>
      intro acc rv index region hget hpos hlo hhi
      cases index with
      | zero =>
          simp only [List.getElem?_cons_zero, Option.some.injEq] at hget
          subst hget
          have hc : acc + r.weight > rv := by
            simp only [partialSum] at hhi
            omega
          simp [selectElementLoop, hc]
      | succ n =>
          simp only [List.getElem?_cons_succ] at hget
          have htail : ∀ x ∈ rest, 0 < x.weight :=
            fun x hx => hpos x (List.mem_cons_of_mem _ hx)
          have hnn : 0 ≤ partialSum rest n :=
            partialSum_nonneg (fun x hx => le_of_lt (htail x hx)) n
          simp only [partialSum] at hlo hhi
          have hc : ¬ (acc + r.weight > rv) := by omega
          simp only [selectElementLoop, if_neg hc]
          exact ih hget htail (by omega) (by omega)

theorem foldl_weight_eq (regions : List (WheelRegion E)) :
    ∀ acc : Int,
      regions.foldl (fun totalWeight region => totalWeight + region.weight)
          acc =
        acc + partialSum regions regions.length := by
  induction regions with
  | nil => intro acc; simp [partialSum]
  | cons r rest ih =>
      intro acc
      simp only [List.foldl_cons, List.length_cons, partialSum, ih]
      omega

theorem calculateTotalWeight_eq_partialSum (regions : List (WheelRegion E)) :
    calculateTotalWeight regions = partialSum regions regions.length := by
  have h := foldl_weight_eq regions 0
  simpa [calculateTotalWeight] using h

theorem selectElementLoop_none_le {regions : List (WheelRegion E)} :
    ∀ {accumulatedWeight randomValue : Int},
      accumulatedWeight ≤ randomValue →
      selectElementLoop regions accumulatedWeight randomValue = none →
      accumulatedWeight + partialSum regions regions.length ≤ randomValue := by
  induction regions with
  | nil => intro acc rv hacc _; simpa [partialSum] using hacc
  | cons r rest ih =>
      intro acc rv hacc h
      by_cases hc : acc + r.weight > rv
      · simp [selectElementLoop, hc] at h
      · simp only [selectElementLoop, if_neg hc] at h
        have := ih (by omega) h
        simp only [List.length_cons, partialSum]
        omega

theorem selectElementLoop_some_bracket {regions : List (WheelRegion E)} :
    ∀ {accumulatedWeight randomValue : Int} {e : E},
      accumulatedWeight ≤ randomValue →
      selectElementLoop regions accumulatedWeight randomValue = some e →
      ∃ index region, regions[index]? = some region ∧ region.element = e ∧
        accumulatedWeight + partialSum regions index ≤ randomValue ∧
        randomValue < accumulatedWeight + partialSum regions (index + 1) := by
  induction regions with
  | nil => intro acc rv e _ h; simp [selectElementLoop] at h
  | cons r rest ih =>
      intro acc rv e hacc h
      by_cases hc : acc + r.weight > rv
      · simp only [selectElementLoop, if_pos hc, Option.some.injEq] at h
        refine ⟨0, r, by simp, h, ?_, ?_⟩
        · simpa [partialSum] using hacc
        · simp only [partialSum]
          omega
      · simp only [selectElementLoop, if_neg hc] at h
        obtain ⟨index, region, hget, helem, hlo, hhi⟩ := ih (by omega) h
        refine ⟨index + 1, region, by simpa using hget, helem, ?_, ?_⟩
        · simp only [partialSum]
          omega
        · simp only [partialSum]
          omega

/-! Wheel-level frame facts for the selection family. -/

theorem select_m_regions (rs : RandomSource σ) (w : RouletteWheel E σ) :
    (select rs w).2.m_regions = w.m_regions := by
  obtain ⟨regs, eng⟩ := w
  rcases regs with _ | ⟨r, _ | ⟨r', rest⟩⟩ <;> simp [select]

theorem selectSafe_m_regions (rs : RandomSource σ) (w : RouletteWheel E σ) :
    (selectSafe rs w).2.m_regions = w.m_regions := by
  by_cases h : w.m_regions.isEmpty <;>
    simp [selectSafe, h, select_m_regions]

theorem select_ok_mem (rs : RandomSource σ) (w : RouletteWheel E σ)
    (hne : w.m_regions ≠ []) :
    ∃ e, (select rs w).1 = Except.ok e ∧
      e ∈ w.m_regions.map WheelRegion.element := by
  obtain ⟨regs, eng⟩ := w
  rcases regs with _ | ⟨r, _ | ⟨r', rest⟩⟩
  · simp at hne
  · exact ⟨r.element, by simp [select], by simp⟩
  · obtain ⟨e, he⟩ := selectElementByWeight_isSome
      (by simp : r :: r' :: rest ≠ [])
      (generateRandomWeight rs eng (calculateTotalWeight (r :: r' :: rest))).1
    refine ⟨e, ?_, selectElementByWeight_some_mem he⟩
    simp only [select, he]

theorem select_of_empty (rs : RandomSource σ) (w : RouletteWheel E σ)
    (h : w.m_regions = []) :
    select rs w = (Except.error WheelError.emptyWheel, w) := by
  obtain ⟨regs, eng⟩ := w
  simp only [RouletteWheel.m_regions] at h
  subst h
  simp [select]

/-! Preservation of the wheel invariant. -/

theorem wheelInv_sublist {regions₁ regions₂ : List (WheelRegion E)}
    (hsub : List.Sublist regions₁ regions₂) (h : WheelInv regions₂) :
    WheelInv regions₁ :=
  ⟨h.1.sublist hsub, fun r hr => h.2 r (hsub.subset hr)⟩

theorem pairwise_of_map_element_eq {regions₁ regions₂ : List (WheelRegion E)}
    (hmap : regions₁.map WheelRegion.element = regions₂.map WheelRegion.element)
    (h : regions₂.Pairwise (fun a b => a.element ≠ b.element)) :
    regions₁.Pairwise (fun a b => a.element ≠ b.element) := by
  have h₂ : (regions₂.map WheelRegion.element).Pairwise (· ≠ ·) :=
    (List.pairwise_map).2 h
  rw [← hmap] at h₂
  exact (List.pairwise_map).1 h₂

theorem wheelInv_setWeightAtIndex {regions : List (WheelRegion E)}
    {index : Nat} {weight : Int} (hw : 0 < weight) (h : WheelInv regions) :
    WheelInv (setWeightAtIndex regions index weight) := by
  constructor
  · exact pairwise_of_map_element_eq
      (map_element_setWeightAtIndex regions index weight) h.1
  · intro r hr
    rcases mem_setWeightAtIndex hr with hmem | hwt
    · exact h.2 r hmem
    · omega

theorem wheelInv_addRegion (w : RouletteWheel E σ) (element : E)
    (weight : Int) (h : WheelInv w.m_regions) :
    WheelInv (addRegion w element weight).2.m_regions := by
  by_cases hw : weight ≤ 0
  · simpa [addRegion, hw] using h
  · cases hfind : findElementIndex w.m_regions element with
    | some index =>
        obtain ⟨region, hget, helem⟩ := findElementIndex_getElem? hfind
        have hpos : 0 < region.weight := h.2 region (List.getElem?_mem hget)
        simp only [addRegion, if_neg hw, hfind]
        unfold combineWeightAtIndex
        rw [hget]
        exact wheelInv_setWeightAtIndex (by omega) h
    | none =>
        simp only [addRegion, if_neg hw, hfind]
        constructor
        · rw [List.pairwise_append]
          refine ⟨h.1, by simp, fun a ha b hb => ?_⟩
          simp only [List.mem_singleton] at hb
          subst hb
          exact findElementIndex_eq_none.1 hfind a ha
        · intro r hr
          rcases List.mem_append.1 hr with hmem | hmem
          · exact h.2 r hmem
          · simp only [List.mem_singleton] at hmem
            subst hmem
            show (0 : Int) < weight
            omega

theorem wheelInv_modifyElementWeight (regions : List (WheelRegion E))
    (element : E) (weightDelta : Int) (h : WheelInv regions) :
    WheelInv (modifyElementWeight regions element weightDelta) := by
  cases hfind : findElementIndex regions element with
  | none => simpa [modifyElementWeight, hfind] using h
  | some index =>
      obtain ⟨region, hget, helem⟩ := findElementIndex_getElem? hfind
      by_cases hneg : region.weight + weightDelta ≤ 0
      · simp only [modifyElementWeight, hfind, hget, if_pos hneg]
        exact wheelInv_sublist (List.eraseIdx_sublist _ _) h
      · simp only [modifyElementWeight, hfind, hget, if_neg hneg]
        exact wheelInv_setWeightAtIndex (by omega) h

theorem wheelInv_removeElement (w : RouletteWheel E σ) (element : E)
    (h : WheelInv w.m_regions) :
    WheelInv (removeElement w element).2.m_regions := by
  cases hfind : findElementIndex w.m_regions element with
  | none => simpa [removeElement, hfind] using h
  | some index =>
      simp only [removeElement, hfind]
      exact wheelInv_sublist (List.eraseIdx_sublist _ _) h

theorem eraseIdx_element_ne_of_pairwise {regions : List (WheelRegion E)}
    {element : E} {index : Nat}
    (hp : regions.Pairwise (fun a b => a.element ≠ b.element))
    (hfind : findElementIndex regions element = some index) :
    ∀ region ∈ regions.eraseIdx index, region.element ≠ element := by
  induction regions generalizing index with
  | nil => simp [findElementIndex] at hfind
  | cons r rest ih =>
      by_cases he : r.element = element
      · simp [findElementIndex, he] at hfind
        have hzero : index = 0 := by omega
        subst hzero
        rw [List.eraseIdx_cons_zero]
        intro region hreg hcontra
        exact (List.pairwise_cons.1 hp).1 region hreg (he.trans hcontra.symm)
      · simp only [findElementIndex, if_neg he, Option.map_eq_some'] at hfind
        obtain ⟨j, hj, rfl⟩ := hfind
        rw [List.eraseIdx_cons_succ]
        intro region hreg
        rcases List.mem_cons.1 hreg with rfl | hreg'
        · exact he
        · exact ih (List.pairwise_cons.1 hp).2 hj region hreg'

theorem findElementWeight_setWeightAtIndex {regions : List (WheelRegion E)}
    {element : E} {index : Nat} (weight : Int)
    (hfind : findElementIndex regions element = some index) :
    findElementWeight (setWeightAtIndex regions index weight) element =
      some weight := by
  have hfind' :
      findElementIndex (setWeightAtIndex regions index weight) element =
        some index := by
    rw [findElementIndex_congr element
      (map_element_setWeightAtIndex regions index weight)]
    exact hfind
  rw [findElementWeight_eq_some_find hfind',
    getElem?_setWeightAtIndex_self]
  obtain ⟨region, hget, _⟩ := findElementIndex_getElem? hfind
  rw [hget]
  simp

/-! The claims. -/

/-- C1 counterexample: on regions with weights [1, 1] and drawn value
R = 1 — which lies in [0, T) for T = 2 — the walk selects the region at
index 1, whose preceding partial sum equals 1, so the spec's strict lower
bound `partialSum_before < R` fails for the selected region: the claimed
equivalence `region i is selected exactly when
partialSum_before < R < partialSum_after` is false at this input. -/
theorem strict_bracket_counterexample :
    selectElementByWeight [WheelRegion.mk (0 : Nat) 1, WheelRegion.mk 1 1] 1 =
        some 1 ∧
      (0 : Int) ≤ 1 ∧
      (1 : Int) <
        calculateTotalWeight
          [WheelRegion.mk (0 : Nat) 1, WheelRegion.mk 1 1] ∧
      ¬ partialSum [WheelRegion.mk (0 : Nat) 1, WheelRegion.mk 1 1] 1 < 1 := by
  decide

/-- C1 (amended): for a wheel with more than one region, all weights
positive, and a drawn value R in [0, T), the selection walk picks the
first region in storage order whose inclusive running partial sum strictly
exceeds R; region `index` is selected exactly when
`partialSum_before ≤ R < partialSum_after`, using `partialSum_after > R`
as the stopping test (the spec's strict lower bound
`partialSum_before < R` is weakened to `partialSum_before ≤ R`). -/
theorem selection_walk_first_exceeding (regions : List (WheelRegion E))
    (randomValue : Int) (index : Nat) (region : WheelRegion E)
    (hpos : ∀ r ∈ regions, 0 < r.weight)
    (hlen : 1 < regions.length)
    (hR0 : 0 ≤ randomValue)
    (hRT : randomValue < calculateTotalWeight regions)
    (hget : regions[index]? = some region)
    (hlo : partialSum regions index ≤ randomValue)
    (hhi : randomValue < partialSum regions (index + 1)) :
    selectElementByWeight regions randomValue = some region.element ∧
      (∀ j, j < index → partialSum regions (j + 1) ≤ randomValue) ∧
      ∀ e, selectElementByWeight regions randomValue = some e →
        ∃ i r, regions[i]? = some r ∧ r.element = e ∧
          partialSum regions i ≤ randomValue ∧
          randomValue < partialSum regions (i + 1) := by
  have hloop : selectElementLoop regions 0 randomValue =
      some region.element :=
    selectElementLoop_bracket hget hpos (by simpa using hlo)
      (by simpa using hhi)
  refine ⟨by simp [selectElementByWeight, hloop], fun j hj => ?_, ?_⟩
  · exact le_trans
      (partialSum_mono (fun r hr => le_of_lt (hpos r hr))
        (by omega : j + 1 ≤ index))
      hlo
  · intro e he
    unfold selectElementByWeight at he
    cases hl : selectElementLoop regions 0 randomValue with
    | some e' =>
        rw [hl] at he
        obtain rfl : e' = e := Option.some.inj he
        obtain ⟨i, r, hget', helem', hlo', hhi'⟩ :=
          selectElementLoop_some_bracket hR0 hl
        exact ⟨i, r, hget', helem', by simpa using hlo', by simpa using hhi'⟩
    | none =>
        exfalso
        have hle := selectElementLoop_none_le hR0 hl
        rw [calculateTotalWeight_eq_partialSum] at hRT
        omega

/-- C1 witness: on the two-region wheel with weights [5, 10] and drawn
value 6, the walk selects the second region (partial sums: 5 ≤ 6 < 15). -/
theorem selection_walk_first_exceeding_witness :
    selectElementByWeight
        [WheelRegion.mk (0 : Nat) 5, WheelRegion.mk 1 10] 6 = some 1 :=
  (selection_walk_first_exceeding
    [WheelRegion.mk (0 : Nat) 5, WheelRegion.mk 1 10] 6 1
    (WheelRegion.mk 1 10)
    (by decide) (by decide) (by decide) (by decide) (by decide) (by decide)
    (by decide)).1

/-- C2: addRegion with a non-positive weight fails with InvalidWeight and
returns the wheel completely unchanged — same size, same elements, same
weights, in the same order. -/
theorem addRegion_invalid_weight (w : RouletteWheel E σ) (element : E)
    (weight : Int) (hw : weight ≤ 0) :
    addRegion w element weight = (some WheelError.invalidWeight, w) := by
  simp [addRegion, hw]

/-- C2 witness: adding element 1 with weight 0 to the one-region sample
wheel fails with InvalidWeight and leaves the wheel untouched. -/
theorem addRegion_invalid_weight_witness :
    addRegion singleSample 1 0 =
      (some WheelError.invalidWeight, singleSample) :=
  addRegion_invalid_weight singleSample 1 0 (by decide)

/-- C3: addRegion with a strictly positive weight succeeds; when the
element is already present, the weight is added onto the existing region
(same length, same element sequence, the element's stored weight becomes
the accumulated old + new); when it is absent, a new region
(element, weight) is appended at the end of the sequence. -/
theorem addRegion_accumulates_or_appends (w : RouletteWheel E σ)
    (element : E) (weight : Int) (hw : 0 < weight) :
    (addRegion w element weight).1 = none ∧
      (∀ index, findElementIndex w.m_regions element = some index →
        (addRegion w element weight).2.m_regions.length =
            w.m_regions.length ∧
          (addRegion w element weight).2.m_regions.map WheelRegion.element =
            w.m_regions.map WheelRegion.element ∧
          ∀ oldWeight,
            findElementWeight w.m_regions element = some oldWeight →
              findElementWeight (addRegion w element weight).2.m_regions
                  element =
                some (oldWeight + weight)) ∧
      (findElementIndex w.m_regions element = none →
        (addRegion w element weight).2.m_regions =
          w.m_regions ++ [⟨element, weight⟩]) := by
  have hw' : ¬ weight ≤ 0 := by omega
  refine ⟨?_, ?_, ?_⟩
  · cases hfind : findElementIndex w.m_regions element <;>
      simp [addRegion, hw', hfind]
  · intro index hfind
    obtain ⟨region, hget, helem⟩ := findElementIndex_getElem? hfind
    simp only [addRegion, if_neg hw', hfind]
    unfold combineWeightAtIndex
    rw [hget]
    refine ⟨length_setWeightAtIndex _ _ _,
      map_element_setWeightAtIndex _ _ _, ?_⟩
    intro oldWeight hweight
    have hrw : findElementWeight w.m_regions element = some region.weight := by
      rw [findElementWeight_eq_some_find hfind, hget, Option.map_some']
    have hval : oldWeight = region.weight :=
      Option.some.inj (hweight.symm.trans hrw)
    rw [findElementWeight_setWeightAtIndex (region.weight + weight) hfind,
      hval]
  · intro hfind
    simp [addRegion, hw', hfind]

/-- C3 witness: adding weight 3 to the already-present element 0 of the
one-region sample wheel (stored weight 5) yields a single region for 0
holding weight 8. -/
theorem addRegion_accumulates_or_appends_witness :
    findElementWeight (addRegion singleSample 0 3).2.m_regions 0 =
      some 8 := by
  have h :=
    ((addRegion_accumulates_or_appends singleSample 0 3 (by decide)).2.1
      0 (by decide)).2.2 5 (by decide)
  simpa using h

/-- C4: every public operation preserves the wheel invariant — at most one
region per distinct element value and all stored weights strictly
positive: addRegion, select, selectSafe, selectAndModifyWeight,
selectAndRemove, removeElement and removeInvalidRegions all map a wheel
satisfying the invariant to a wheel satisfying it. -/
theorem wheel_invariant_preserved (rs : RandomSource σ)
    (w : RouletteWheel E σ) (element : E) (weight weightDelta : Int)
    (hInv : WheelInv w.m_regions) :
    WheelInv (addRegion w element weight).2.m_regions ∧
      WheelInv (select rs w).2.m_regions ∧
      WheelInv (selectSafe rs w).2.m_regions ∧
      WheelInv (selectAndModifyWeight rs w weightDelta).2.m_regions ∧
      WheelInv (selectAndRemove rs w).2.m_regions ∧
      WheelInv (removeElement w element).2.m_regions ∧
      WheelInv (removeInvalidRegions w).2.m_regions := by
  rcases hs : select rs w with ⟨res, w'⟩
  have hw' : w'.m_regions = w.m_regions := by
    have hh := select_m_regions rs w
    rw [hs] at hh
    exact hh
  have hInv' : WheelInv w'.m_regions := by rw [hw']; exact hInv
  have hmod : WheelInv (selectAndModifyWeight rs w weightDelta).2.m_regions := by
    rcases res with err | e <;> simp only [selectAndModifyWeight, hs]
    · exact hInv'
    · exact wheelInv_modifyElementWeight _ e weightDelta hInv'
  have hrem : WheelInv (selectAndRemove rs w).2.m_regions := by
    rcases res with err | e <;> simp only [selectAndRemove, hs]
    · exact hInv'
    · exact wheelInv_removeElement w' e hInv'
  refine ⟨wheelInv_addRegion w element weight hInv,
    hInv',
    by rw [selectSafe_m_regions]; exact hInv,
    hmod, hrem,
    wheelInv_removeElement w element hInv, ?_⟩
  simp only [removeInvalidRegions]
  exact wheelInv_sublist (List.filter_sublist _) hInv

/-- C4 witness: the invariant holds after selectAndModifyWeight on the
concrete two-region sample wheel. -/
theorem wheel_invariant_preserved_witness :
    WheelInv (selectAndModifyWeight lcgSource doubleSample (-1)).2.m_regions :=
  (wheel_invariant_preserved lcgSource doubleSample 2 7 (-1)
    (by decide)).2.2.2.1

/-- C5: on an empty wheel, select fails with EmptyWheel while selectSafe
returns an empty result without failing; on a non-empty wheel, selectSafe
returns exactly the element select returns, with the same resulting
wheel. -/
theorem select_empty_vs_selectSafe (rs : RandomSource σ)
    (w : RouletteWheel E σ) :
    (w.m_regions = [] →
        select rs w = (Except.error WheelError.emptyWheel, w) ∧
          selectSafe rs w = (none, w)) ∧
      (w.m_regions ≠ [] →
        ∃ e, (select rs w).1 = Except.ok e ∧
          selectSafe rs w = (some e, (select rs w).2)) := by
  constructor
  · intro h
    refine ⟨select_of_empty rs w h, ?_⟩
    simp [selectSafe, h]
  · intro hne
    obtain ⟨e, he, hmem⟩ := select_ok_mem rs w hne
    refine ⟨e, he, ?_⟩
    have hemp : w.m_regions.isEmpty = false := by
      simpa [List.isEmpty_iff] using hne
    simp [selectSafe, hemp, he, Except.toOption]

/-- C5 witness: selectSafe returns an empty result on the concrete empty
wheel and the element select picks on the concrete one-region wheel. -/
theorem select_empty_vs_selectSafe_witness :
    (selectSafe lcgSource emptySample).1 = none ∧
      (selectSafe lcgSource singleSample).1 = some 0 := by
  have h1 := (select_empty_vs_selectSafe lcgSource emptySample).1 rfl
  obtain ⟨e, he, hsafe⟩ :=
    (select_empty_vs_selectSafe lcgSource singleSample).2 (by decide)
  have he0 : (select lcgSource singleSample).1 = Except.ok 0 := rfl
  obtain rfl : e = 0 := Except.ok.inj (he.symm.trans he0)
  exact ⟨by rw [h1.2], by rw [hsafe]⟩

/-- C6: selectAndModifyWeight performs select, then adds the delta to the
selected element's stored weight: when the new weight is non-positive the
region is pruned entirely (the size decreases by one and the element is
gone), otherwise the region keeps the new weight (size unchanged); the
returned element is the one selected before the modification; on an empty
wheel it fails exactly as select does. -/
theorem selectAndModifyWeight_spec (rs : RandomSource σ)
    (w : RouletteWheel E σ) (weightDelta : Int)
    (hInv : WheelInv w.m_regions) :
    (w.m_regions = [] →
        selectAndModifyWeight rs w weightDelta =
          (Except.error WheelError.emptyWheel, w)) ∧
      ∀ e, (select rs w).1 = Except.ok e →
        (selectAndModifyWeight rs w weightDelta).1 = Except.ok e ∧
          ∀ oldWeight, findElementWeight w.m_regions e = some oldWeight →
            ((oldWeight + weightDelta ≤ 0 →
                (selectAndModifyWeight rs w
                      weightDelta).2.m_regions.length + 1 =
                    w.m_regions.length ∧
                  findElementIndex
                      (selectAndModifyWeight rs w weightDelta).2.m_regions
                      e =
                    none) ∧
              (0 < oldWeight + weightDelta →
                (selectAndModifyWeight rs w weightDelta).2.m_regions.length =
                    w.m_regions.length ∧
                  findElementWeight
                      (selectAndModifyWeight rs w weightDelta).2.m_regions
                      e =
                    some (oldWeight + weightDelta))) := by
  constructor
  · intro h
    have hsel := select_of_empty rs w h
    simp [selectAndModifyWeight, hsel]
  · intro e he
    rcases hs : select rs w with ⟨res, w'⟩
    rw [hs] at he
    have he' : res = Except.ok e := he
    subst he'
    have hw' : w'.m_regions = w.m_regions := by
      have hh := select_m_regions rs w
      rw [hs] at hh
      exact hh
    have hfst : (selectAndModifyWeight rs w weightDelta).1 =
        Except.ok e := by
      simp [selectAndModifyWeight, hs]
    have hsnd : (selectAndModifyWeight rs w weightDelta).2.m_regions =
        modifyElementWeight w.m_regions e weightDelta := by
      simp [selectAndModifyWeight, hs, hw']
    refine ⟨hfst, ?_⟩
    intro oldWeight hwt
    obtain ⟨index, region, hfind, hget, helem, hwtval⟩ :=
      findElementWeight_elim hwt
    rw [hsnd]
    constructor
    · intro hneg
      have hneg' : region.weight + weightDelta ≤ 0 := by omega
      simp only [modifyElementWeight, hfind, hget, if_pos hneg']
      exact ⟨List.length_eraseIdx_add_one (findElementIndex_lt_length hfind),
        findElementIndex_eq_none.2
          (eraseIdx_element_ne_of_pairwise hInv.1 hfind)⟩
    · intro hposnew
      have hpos' : ¬ region.weight + weightDelta ≤ 0 := by omega
      simp only [modifyElementWeight, hfind, hget, if_neg hpos']
      refine ⟨length_setWeightAtIndex _ _ _, ?_⟩
      rw [findElementWeight_setWeightAtIndex
        (region.weight + weightDelta) hfind, hwtval]

/-- C6 witness: on the one-region sample wheel (weight 5), delta -5 prunes
the region — the size drops from one to zero and the element is gone. -/
theorem selectAndModifyWeight_spec_witness :
    (selectAndModifyWeight lcgSource singleSample
          (-5)).2.m_regions.length + 1 = 1 ∧
      findElementIndex
          (selectAndModifyWeight lcgSource singleSample (-5)).2.m_regions
          0 =
        none := by
  have h := ((selectAndModifyWeight_spec lcgSource singleSample (-5)
      (by decide)).2 0 rfl).2 5 rfl
  exact h.1 (by decide)

/-- C7: on a wheel with at least one region, all weights positive, select
never fails and always returns an element currently present in the wheel,
whatever value the random source draws; when no region satisfies the
stopping test, the walk falls back to the last region's element. -/
theorem select_total_on_positive (rs : RandomSource σ)
    (w : RouletteWheel E σ) (hne : w.m_regions ≠ [])
    (hpos : ∀ region ∈ w.m_regions, 0 < region.weight) :
    (∀ err, (select rs w).1 ≠ Except.error err) ∧
      (∀ e, (select rs w).1 = Except.ok e →
        e ∈ w.m_regions.map WheelRegion.element) ∧
      ∀ randomValue : Int,
        selectElementLoop w.m_regions 0 randomValue = none →
          selectElementByWeight w.m_regions randomValue =
            w.m_regions.getLast?.map (fun region => region.element) := by
  obtain ⟨e, he, hmem⟩ := select_ok_mem rs w hne
  refine ⟨?_, ?_, ?_⟩
  · intro err hcontra
    exact absurd (he.symm.trans hcontra) (by simp)
  · intro e' he'
    obtain rfl : e' = e := Except.ok.inj (he'.symm.trans he)
    exact hmem
  · intro randomValue hloop
    simp [selectElementByWeight, hloop]

/-- C7 witness: on the concrete two-region wheel, select with the concrete
source picks element 1, which is present in the wheel. -/
theorem select_total_on_positive_witness :
    (1 : Nat) ∈ doubleSample.m_regions.map WheelRegion.element :=
  (select_total_on_positive lcgSource doubleSample (by decide)
    (by decide)).2.1 1 rfl

/-- C8: a wheel with exactly one region returns that region's element
directly, leaving the random engine state untouched (no draw happens);
and the general selection walk on the one-region wheel picks that same
element for every drawn value in [0, T), so the fast path has no semantic
difference. -/
theorem single_region_fast_path (rs : RandomSource σ)
    (w : RouletteWheel E σ) (region : WheelRegion E)
    (h : w.m_regions = [region]) :
    select rs w = (Except.ok region.element, w) ∧
      ∀ randomValue : Int, 0 ≤ randomValue →
        randomValue < calculateTotalWeight w.m_regions →
        selectElementByWeight w.m_regions randomValue =
          some region.element := by
  obtain ⟨regs, eng⟩ := w
  have h' : regs = [region] := h
  subst h'
  constructor
  · simp [select]
  · intro randomValue h0 hT
    have hTw : calculateTotalWeight [region] = region.weight := by
      simp [calculateTotalWeight]
    have hc : randomValue < region.weight := by
      rw [hTw] at hT
      omega
    simp [selectElementByWeight, selectElementLoop, hc]

/-- C8 witness: the one-region sample wheel returns its element 0 with the
engine state unchanged, and the general walk at drawn value 3 picks the
same element. -/
theorem single_region_fast_path_witness :
    select lcgSource singleSample = (Except.ok 0, singleSample) ∧
      selectElementByWeight singleSample.m_regions 3 = some 0 := by
  have h := single_region_fast_path lcgSource singleSample
    (WheelRegion.mk 0 5) rfl
  exact ⟨h.1, h.2 3 (by decide) (by decide)⟩

/-- C9: two wheels holding the same region sequence, reseeded with the
same seed, produce identical select result sequences for the same number
of calls — select is a deterministic function of the region sequence and
the engine state. -/
theorem same_seed_same_select_sequence (rs : RandomSource σ)
    (w₁ w₂ : RouletteWheel E σ) (seedValue n : Nat)
    (h : w₁.m_regions = w₂.m_regions) :
    selectSeq rs (seedRandom rs w₁ seedValue) n =
      selectSeq rs (seedRandom rs w₂ seedValue) n := by
  have hw : seedRandom rs w₁ seedValue = seedRandom rs w₂ seedValue := by
    obtain ⟨r₁, e₁⟩ := w₁
    obtain ⟨r₂, e₂⟩ := w₂
    have h' : r₁ = r₂ := h
    subst h'
    rfl
  rw [hw]

/-- C9 witness: the two concrete wheels sharing the sample regions but
starting from different engine states produce the same three-draw result
sequence once reseeded with seed 42. -/
theorem same_seed_same_select_sequence_witness :
    selectSeq lcgSource (seedRandom lcgSource doubleSample 42) 3 =
      selectSeq lcgSource
        (seedRandom lcgSource
          (RouletteWheel.mk doubleSample.m_regions 99) 42) 3 :=
  same_seed_same_select_sequence lcgSource doubleSample
    (RouletteWheel.mk doubleSample.m_regions 99) 42 3 rfl

/-- C10: select and selectSafe leave the region sequence entirely
unchanged — same size, same elements, same weights, same order; only the
random engine state moves. -/
theorem select_preserves_regions (rs : RandomSource σ)
    (w : RouletteWheel E σ) :
    (select rs w).2.m_regions = w.m_regions ∧
      (selectSafe rs w).2.m_regions = w.m_regions :=
  ⟨select_m_regions rs w, selectSafe_m_regions rs w⟩

end Roulette
